import Mathlib

set_option autoImplicit false
set_option maxHeartbeats 1000000

/-!
Verification of the `select` command (`crates/nu-cli/src/commands/select.rs`):
a streaming column-projection operator.  The value model, path resolution and
key rendering are the interface of the external value library
(`nu-protocol` / `nu-value-ext`), modelled from the spec; the accumulation and
row-synthesis logic is translated from the source of `select` itself.
-/

namespace NuSelect

/-- Scalar primitives (`nu_protocol::Primitive`), restricted to the variants
needed to exercise the `select` semantics; `nothing` is the null marker. -/
inductive Primitive where
  | nothing
  | int (n : Int)
  | str (s : String)
deriving DecidableEq

/-- `nu_protocol::UntaggedValue`: a recursive union of primitives, ordered
records (`Row`) and tables.  Provenance tags are opaque pass-through data,
irrelevant to the command logic, and are omitted. -/
inductive Value where
  | primitive (p : Primitive)
  | row (entries : List (String × Value))
  | table (rows : List Value)

/-- The null marker `UntaggedValue::Primitive(Primitive::Nothing)`. -/
def nothing_value : Value := Value.primitive Primitive.nothing

/-- `nu_protocol::UnspannedPathMember`: one step of a column path, either a
field name or a table index. -/
inductive PathMember where
  | string (s : String)
  | int (n : Nat)
deriving DecidableEq

/-- A `ColumnPath` is the ordered list of its members. -/
abbrev ColumnPath := List PathMember

/-- Modelled from the spec: the string rendering of a single path member. -/
def memberString : PathMember → String
  | .string s => s
  | .int n => toString n

/-- Modelled from the spec: the canonical key of a requested path — its
dot-joined string rendering.  In the source this is computed by
`as_string(UntaggedValue::Primitive(Primitive::ColumnPath(path)))` from the
external `nu-value-ext` library. -/
def render (p : ColumnPath) : String :=
  String.intercalate "." (p.map memberString)

/-- First-match lookup of a field name in a row's ordered entry list. -/
def lookupField : List (String × Value) → String → Option Value
  | [], _ => none
  | (k, v) :: rest, name => if k = name then some v else lookupField rest name

/-- Modelled from the spec: `nu_value_ext::get_data_by_column_path` (spec
§4.1): traverse the path member by member, a string member indexing into a
row's fields and an integer member indexing into a table, failing at the first
member that cannot be satisfied.  The structured error payload is irrelevant
to the command logic, so failure is `none`. -/
def get_data_by_column_path : Value → ColumnPath → Option Value
  | v, [] => some v
  | .row entries, .string name :: rest =>
      match lookupField entries name with
      | some v => get_data_by_column_path v rest
      | none => none
  | .table rows, .int i :: rest =>
      match rows.get? i with
      | some v => get_data_by_column_path v rest
      | none => none
  | _, _ :: _ => none

/-- Modelled from the spec: `Value::get_data(key)` — field lookup on a row
value, producing the null marker for a missing field; a non-row value is
returned as-is.  Used at synthesis time to unwrap the stored wrappers. -/
def get_data (v : Value) (key : String) : Value :=
  match v with
  | .row entries => (lookupField entries key).getD nothing_value
  | v => v

/-- The accumulation map `bring_back : IndexMap<String, Vec<Value>>`, as an
insertion-ordered association list with unique keys. -/
abbrev AccMap := List (String × List Value)

/-- `IndexMap::get`: first-match lookup of a key's accumulated list. -/
def lookupList : AccMap → String → Option (List Value)
  | [], _ => none
  | (k, l) :: rest, key => if k = key then some l else lookupList rest key

/-- The accumulated list for a key, empty when the key is absent. -/
def listFor (m : AccMap) (k : String) : List Value := (lookupList m k).getD []

/-- The ordered key list of the map (`bring_back.keys()`). -/
def keys (m : AccMap) : List String := m.map Prod.fst

/-- `bring_back.entry(key).or_insert(vec![]).push(v)`: append `v` to the
key's list, inserting the key at the end of the map when absent. -/
def pushEntry : AccMap → String → Value → AccMap
  | [], key, v => [(key, [v])]
  | (k, l) :: rest, key, v =>
      if k = key then (k, l ++ [v]) :: rest else (k, l) :: pushEntry rest key v

/-- `bring_back.entry(key).or_insert(vec![])`: ensure the key is present,
inserting it at the end of the map with an empty list when absent. -/
def ensureEntry : AccMap → String → AccMap
  | [], key => [(key, [])]
  | (k, l) :: rest, key =>
      if k = key then (k, l) :: rest else (k, l) :: ensureEntry rest key

/-- Errors surfaced by the command.  `labeled_error` carries the message and
label of `ShellError::labeled_error`; `not_found` stands for the diagnostic
built by the fetch callback (its payload is irrelevant here). -/
inductive ShellError where
  | labeled_error (msg label : String)
  | not_found
deriving DecidableEq

/-- `let strict: Option<bool> = None;` — the permanently disabled strict-mode
flag guarding error propagation. -/
def strictFlag : Option Bool := none

/-- The wrapper record `{key: x}` built with `TaggedDictBuilder::new` plus
`insert_untagged(&key, x)`. -/
def wrap (key : String) (x : Value) : Value := Value.row [(key, x)]

/-- Lines 104–120 of the source: a successful fetch of a table fans out into
one wrapper per element, appended in table order to the key's list; any other
successful fetch appends a single wrapper. -/
def okStep (m : AccMap) (key : String) : Value → AccMap
  | .table records => records.foldl (fun acc x => pushEntry acc key (wrap key x)) m
  | x => pushEntry m key (wrap key x)

/-- Lines 104–137 of the source: the handling of one fetch result for one
record/path pair, including the dead strict-propagation branch. -/
def fetchStep (m : AccMap) (key : String) : Option Value → Except ShellError AccMap
  | some v => Except.ok (okStep m key v)
  | none =>
      if strictFlag.isSome then Except.error ShellError.not_found
      else Except.ok (ensureEntry m key)

/-- The inner `for path in &column_paths` loop body, iterated over the path
list for one input record. -/
def accumPaths : AccMap → List ColumnPath → Value → Except ShellError AccMap
  | m, [], _ => Except.ok m
  | m, p :: rest, v =>
      match fetchStep m (render p) (get_data_by_column_path v p) with
      | Except.ok m' => accumPaths m' rest v
      | Except.error e => Except.error e

/-- The outer `while let Some(value) = input.next().await` loop: one pass over
the input stream, accumulating into the map. -/
def accumInput : List Value → List ColumnPath → AccMap → Except ShellError AccMap
  | [], _, m => Except.ok m
  | v :: rest, paths, m =>
      match accumPaths m paths v with
      | Except.ok m' => accumInput rest paths m'
      | Except.error e => Except.error e

/-- Maximum of a list of naturals, `0` for the empty list. -/
def listMax : List Nat → Nat
  | [] => 0
  | n :: rest => Nat.max n (listMax rest)

/-- Modelled from the spec: the row count.  The source sets
`max = max_column.len()` where `max_column = bring_back.values().max()` picks
a maximum list under the `Ord` instance of the external value library (not
part of this repository); spec §4.3 step 1 specifies the result as the
maximum of the lists' lengths, `0` when the map is empty. -/
def width (m : AccMap) : Nat := listMax (m.map (fun kv => kv.2.length))

/-- The cell placed for key `k` in the output record at row index `i`
(lines 151–159): the stored wrapper's field `k` when the key's list has an
element at `i`, the null marker otherwise. -/
def cellAt (m : AccMap) (k : String) (i : Nat) : Value :=
  match lookupList m k with
  | some set =>
      match set.get? i with
      | some r => get_data r k
      | none => nothing_value
  | none => nothing_value

/-- The output record for row index `i`: one field per map key, in stored key
order. -/
def synthRow (m : AccMap) (i : Nat) : Value :=
  Value.row ((keys m).map (fun k => (k, cellAt m k i)))

/-- Lines 140–164: the synthesis pass, one output record per index below the
width.  Wrapping each record in `ReturnSuccess::value` is a framework concern
and is not modelled. -/
def synthesize (m : AccMap) : List Value :=
  (List.range (width m)).map (synthRow m)

/-- The `select` command body: reject an empty path list, reassemble
`column_paths` (the source pops the first path and concatenates it back),
accumulate over the input, then synthesize the output rows. -/
def select (fields : List ColumnPath) (input : List Value) :
    Except ShellError (List Value) :=
  match fields with
  | [] =>
      Except.error
        (ShellError.labeled_error "Select requires columns to select" "needs parameter")
  | f :: rest =>
      let column_paths := [f] ++ rest
      match accumInput input column_paths [] with
      | Except.ok m => Except.ok (synthesize m)
      | Except.error e => Except.error e

/-! ## Concrete sample data -/

/-- The one-member path `a`. -/
def pathA : ColumnPath := [PathMember.string "a"]

/-- The one-member path `b`. -/
def pathB : ColumnPath := [PathMember.string "b"]

/-- The record `{a: 1}`. -/
def recA1 : Value := Value.row [("a", Value.primitive (Primitive.int 1))]

/-- The record `{a: 2, b: 9}`. -/
def recA2B9 : Value :=
  Value.row [("a", Value.primitive (Primitive.int 2)),
             ("b", Value.primitive (Primitive.int 9))]

/-- The Scenario D input stream `[{a:1}, {a:2,b:9}]`. -/
def inputD : List Value := [recA1, recA2B9]

/-! ## Pure forms of the accumulation pass

The strict branch of `fetchStep` never fires (its flag is `None`), so each
stage of the accumulation is equal to a pure fold; the equivalence is proved
below and reused throughout. -/

/-- The pure result of one fetch step. -/
def fetchPure (m : AccMap) (key : String) : Option Value → AccMap
  | some v => okStep m key v
  | none => ensureEntry m key

/-- Pure form of the per-record path loop. -/
def recordPure (paths : List ColumnPath) (v : Value) (m : AccMap) : AccMap :=
  paths.foldl (fun m p => fetchPure m (render p) (get_data_by_column_path v p)) m

/-- Pure form of the accumulation pass, from an arbitrary starting map. -/
def accumFrom (input : List Value) (paths : List ColumnPath) (m : AccMap) : AccMap :=
  input.foldl (fun m v => recordPure paths v m) m

/-- The accumulation map produced from an input stream and a path list. -/
def accumPure (input : List Value) (paths : List ColumnPath) : AccMap :=
  accumFrom input paths []

theorem fetchStep_eq_ok (m : AccMap) (key : String) (r : Option Value) :
    fetchStep m key r = Except.ok (fetchPure m key r) := by
  cases r <;> rfl

theorem accumPaths_eq_ok (paths : List ColumnPath) (v : Value) (m : AccMap) :
    accumPaths m paths v = Except.ok (recordPure paths v m) := by
  induction paths generalizing m with
  | nil => rfl
  | cons p rest ih =>
      simp only [accumPaths, fetchStep_eq_ok, recordPure, List.foldl_cons]
      exact ih _

theorem accumInput_eq_ok (input : List Value) (paths : List ColumnPath) (m : AccMap) :
    accumInput input paths m = Except.ok (accumFrom input paths m) := by
  induction input generalizing m with
  | nil => rfl
  | cons v rest ih =>
      simp only [accumInput, accumPaths_eq_ok, accumFrom, List.foldl_cons]
      exact ih _

theorem accumPure_of_accumInput {input : List Value} {paths : List ColumnPath}
    {m : AccMap} (h : accumInput input paths [] = Except.ok m) :
    m = accumPure input paths := by
  rw [accumInput_eq_ok] at h
  exact (Except.ok.inj h).symm

/-! ## The contents of one key's accumulated list -/

theorem lookupList_cons (k0 : String) (l0 : List Value) (rest : AccMap) (k : String) :
    lookupList ((k0, l0) :: rest) k = if k0 = k then some l0 else lookupList rest k := rfl

theorem listFor_pushEntry (m : AccMap) (key k : String) (v : Value) :
    listFor (pushEntry m key v) k =
      if k = key then listFor m k ++ [v] else listFor m k := by
  induction m with
  | nil =>
      by_cases h : k = key
      · subst h
        simp [pushEntry, listFor, lookupList_cons, lookupList]
      · simp [pushEntry, listFor, lookupList_cons, lookupList, h, Ne.symm h]
  | cons e rest ih =>
      obtain ⟨k0, l0⟩ := e
      by_cases h1 : k0 = key
      · subst h1
        by_cases h2 : k = k0
        · subst h2
          simp [pushEntry, listFor, lookupList_cons]
        · simp [pushEntry, listFor, lookupList_cons, h2, Ne.symm h2]
      · simp only [pushEntry, if_neg h1]
        by_cases h2 : k = k0
        · subst h2
          simp [listFor, lookupList_cons, h1]
        · simp only [listFor, lookupList_cons, if_neg (Ne.symm h2)]
          exact ih

theorem listFor_ensureEntry (m : AccMap) (key k : String) :
    listFor (ensureEntry m key) k = listFor m k := by
  induction m with
  | nil =>
      by_cases h : key = k <;> simp [ensureEntry, listFor, lookupList_cons, lookupList, h]
  | cons e rest ih =>
      obtain ⟨k0, l0⟩ := e
      by_cases h1 : k0 = key
      · simp [ensureEntry, h1]
      · simp only [ensureEntry, if_neg h1]
        by_cases h2 : k0 = k
        · simp [listFor, lookupList_cons, h2]
        · simp only [listFor, lookupList_cons, if_neg h2]
          exact ih

/-- The wrappers contributed to a key's list by one fetch result: one per
table element for a table, one for any other value, none on failure. -/
def contrib (key : String) : Option Value → List Value
  | some (Value.table rows) => rows.map (wrap key)
  | some v => [wrap key v]
  | none => []

theorem listFor_pushFold (rows : List Value) (m : AccMap) (key k : String) :
    listFor (rows.foldl (fun acc x => pushEntry acc key (wrap key x)) m) k =
      if k = key then listFor m k ++ rows.map (wrap key) else listFor m k := by
  induction rows generalizing m with
  | nil => by_cases h : k = key <;> simp [h]
  | cons x xs ih =>
      simp only [List.foldl_cons, ih, listFor_pushEntry]
      by_cases h : k = key <;> simp [h]

theorem listFor_fetchPure (m : AccMap) (key k : String) (r : Option Value) :
    listFor (fetchPure m key r) k =
      if k = key then listFor m k ++ contrib key r else listFor m k := by
  cases r with
  | none =>
      by_cases h : k = key <;> simp [fetchPure, listFor_ensureEntry, contrib, h]
  | some v =>
      cases v with
      | table rows =>
          simpa [fetchPure, okStep, contrib] using listFor_pushFold rows m key k
      | primitive p =>
          by_cases h : k = key <;>
            simp [fetchPure, okStep, contrib, listFor_pushEntry, h]
      | row entries =>
          by_cases h : k = key <;>
            simp [fetchPure, okStep, contrib, listFor_pushEntry, h]

/-- The wrappers contributed to key `k` by one input record across the path
list, in path order. -/
def contribs (k : String) (v : Value) : List ColumnPath → List Value
  | [] => []
  | p :: rest =>
      (if render p = k then contrib k (get_data_by_column_path v p) else []) ++
        contribs k v rest

theorem listFor_recordPure (paths : List ColumnPath) (v : Value) (m : AccMap)
    (k : String) :
    listFor (recordPure paths v m) k = listFor m k ++ contribs k v paths := by
  induction paths generalizing m with
  | nil => simp [recordPure, contribs]
  | cons p rest ih =>
      simp only [recordPure, List.foldl_cons] at ih ⊢
      rw [ih, listFor_fetchPure, contribs]
      by_cases h : k = render p
      · subst h
        simp
      · simp [h, Ne.symm h]

/-- The wrappers contributed to key `k` by the whole input stream, in arrival
order. -/
def streamContribs (k : String) (paths : List ColumnPath) : List Value → List Value
  | [] => []
  | v :: rest => contribs k v paths ++ streamContribs k paths rest

theorem listFor_accumFrom (input : List Value) (paths : List ColumnPath)
    (m : AccMap) (k : String) :
    listFor (accumFrom input paths m) k =
      listFor m k ++ streamContribs k paths input := by
  induction input generalizing m with
  | nil => simp [accumFrom, streamContribs]
  | cons v rest ih =>
      simp only [accumFrom, List.foldl_cons] at ih ⊢
      rw [ih, listFor_recordPure, streamContribs, List.append_assoc]

theorem listFor_accumPure (input : List Value) (paths : List ColumnPath)
    (k : String) :
    listFor (accumPure input paths) k = streamContribs k paths input := by
  have h := listFor_accumFrom input paths [] k
  simpa [accumPure, listFor, lookupList] using h

/-! ## The key order of the accumulation map -/

/-- Insert a key at the end of a key list unless already present — the effect
of one `IndexMap` entry operation on the key order. -/
def insertKey (ks : List String) (k : String) : List String :=
  if k ∈ ks then ks else ks ++ [k]

theorem self_mem_insertKey (ks : List String) (k : String) : k ∈ insertKey ks k := by
  by_cases h : k ∈ ks <;> simp [insertKey, h]

theorem mem_insertKey_of_mem {ks : List String} {a : String} (k : String)
    (h : a ∈ ks) : a ∈ insertKey ks k := by
  by_cases hk : k ∈ ks <;> simp [insertKey, hk, h]

theorem mem_of_mem_insertKey {ks : List String} {a k : String}
    (h : a ∈ insertKey ks k) : a ∈ ks ∨ a = k := by
  by_cases hk : k ∈ ks
  · simp only [insertKey, if_pos hk] at h
    exact Or.inl h
  · simp only [insertKey, if_neg hk, List.mem_append, List.mem_singleton] at h
    exact h

theorem insertKey_of_mem {ks : List String} {k : String} (h : k ∈ ks) :
    insertKey ks k = ks := by
  simp [insertKey, h]

theorem nodup_insertKey {ks : List String} (k : String) (h : ks.Nodup) :
    (insertKey ks k).Nodup := by
  by_cases hk : k ∈ ks
  · simpa [insertKey, hk] using h
  · simp only [insertKey, if_neg hk]
    refine List.Nodup.append h (List.nodup_singleton k) ?_
    simp [List.disjoint_singleton, hk]

theorem keys_cons (k0 : String) (l0 : List Value) (rest : AccMap) :
    keys ((k0, l0) :: rest) = k0 :: keys rest := rfl

theorem keys_pushEntry (m : AccMap) (key : String) (v : Value) :
    keys (pushEntry m key v) = insertKey (keys m) key := by
  induction m with
  | nil => simp [pushEntry, keys, insertKey]
  | cons e rest ih =>
      obtain ⟨k0, l0⟩ := e
      by_cases h1 : k0 = key
      · subst h1
        simp [pushEntry, keys_cons, insertKey]
      · simp only [pushEntry, if_neg h1, keys_cons, ih]
        by_cases h2 : key ∈ keys rest <;>
          simp [insertKey, h2, Ne.symm h1]

theorem keys_ensureEntry (m : AccMap) (key : String) :
    keys (ensureEntry m key) = insertKey (keys m) key := by
  induction m with
  | nil => simp [ensureEntry, keys, insertKey]
  | cons e rest ih =>
      obtain ⟨k0, l0⟩ := e
      by_cases h1 : k0 = key
      · subst h1
        simp [ensureEntry, keys_cons, insertKey]
      · simp only [ensureEntry, if_neg h1, keys_cons, ih]
        by_cases h2 : key ∈ keys rest <;>
          simp [insertKey, h2, Ne.symm h1]

theorem keys_pushFold_of_mem {rows : List Value} {m : AccMap} {key : String}
    (h : key ∈ keys m) :
    keys (rows.foldl (fun acc x => pushEntry acc key (wrap key x)) m) = keys m := by
  induction rows generalizing m with
  | nil => rfl
  | cons x xs ih =>
      simp only [List.foldl_cons]
      rw [ih, keys_pushEntry, insertKey_of_mem h]
      rw [keys_pushEntry, insertKey_of_mem h]
      exact h

/-- Every accumulation step other than an empty-table fan-out inserts its key
into the key order. -/
theorem keys_fetchPure {r : Option Value} (m : AccMap) (key : String)
    (h : r ≠ some (Value.table [])) :
    keys (fetchPure m key r) = insertKey (keys m) key := by
  cases r with
  | none => exact keys_ensureEntry m key
  | some v =>
      cases v with
      | primitive p => exact keys_pushEntry m key _
      | row entries => exact keys_pushEntry m key _
      | table rows =>
          cases rows with
          | nil => exact absurd rfl h
          | cons x xs =>
              show keys (List.foldl _ m (x :: xs)) = _
              simp only [List.foldl_cons]
              rw [keys_pushFold_of_mem, keys_pushEntry]
              rw [keys_pushEntry]
              exact self_mem_insertKey _ _

/-- An empty-table fan-out leaves the map untouched. -/
theorem fetchPure_emptyTable (m : AccMap) (key : String) :
    fetchPure m key (some (Value.table [])) = m := rfl

theorem mem_keys_fetchPure {m : AccMap} {a : String} (key : String)
    (r : Option Value) (h : a ∈ keys m) : a ∈ keys (fetchPure m key r) := by
  by_cases he : r = some (Value.table [])
  · subst he
    exact h
  · rw [keys_fetchPure m key he]
    exact mem_insertKey_of_mem key h

theorem mem_keys_of_mem_keys_fetchPure {m : AccMap} {a key : String}
    {r : Option Value} (h : a ∈ keys (fetchPure m key r)) :
    a ∈ keys m ∨ a = key := by
  by_cases he : r = some (Value.table [])
  · subst he
    exact Or.inl h
  · rw [keys_fetchPure m key he] at h
    exact mem_of_mem_insertKey h

theorem nodup_keys_fetchPure {m : AccMap} (key : String) (r : Option Value)
    (h : (keys m).Nodup) : (keys (fetchPure m key r)).Nodup := by
  by_cases he : r = some (Value.table [])
  · subst he
    exact h
  · rw [keys_fetchPure m key he]
    exact nodup_insertKey key h

/-! ## Key order through the per-record and per-stream folds -/

theorem mem_keys_recordPure {m : AccMap} {a : String} (paths : List ColumnPath)
    (v : Value) (h : a ∈ keys m) : a ∈ keys (recordPure paths v m) := by
  induction paths generalizing m with
  | nil => exact h
  | cons p rest ih =>
      simp only [recordPure, List.foldl_cons] at ih ⊢
      exact ih (mem_keys_fetchPure _ _ h)

theorem mem_keys_of_mem_keys_recordPure {m : AccMap} {a : String}
    {paths : List ColumnPath} {v : Value}
    (h : a ∈ keys (recordPure paths v m)) :
    a ∈ keys m ∨ ∃ p ∈ paths, a = render p := by
  induction paths generalizing m with
  | nil => exact Or.inl h
  | cons p rest ih =>
      simp only [recordPure, List.foldl_cons] at h ih
      rcases ih h with h' | ⟨q, hq, hr⟩
      · rcases mem_keys_of_mem_keys_fetchPure h' with h'' | h''
        · exact Or.inl h''
        · exact Or.inr ⟨p, List.mem_cons_self p rest, h''⟩
      · exact Or.inr ⟨q, List.mem_cons_of_mem p hq, hr⟩

theorem nodup_keys_recordPure {m : AccMap} (paths : List ColumnPath) (v : Value)
    (h : (keys m).Nodup) : (keys (recordPure paths v m)).Nodup := by
  induction paths generalizing m with
  | nil => exact h
  | cons p rest ih =>
      simp only [recordPure, List.foldl_cons] at ih ⊢
      exact ih (nodup_keys_fetchPure _ _ h)

theorem mem_keys_accumFrom {m : AccMap} {a : String} (input : List Value)
    (paths : List ColumnPath) (h : a ∈ keys m) :
    a ∈ keys (accumFrom input paths m) := by
  induction input generalizing m with
  | nil => exact h
  | cons v rest ih =>
      simp only [accumFrom, List.foldl_cons] at ih ⊢
      exact ih (mem_keys_recordPure _ _ h)

theorem mem_keys_of_mem_keys_accumFrom {m : AccMap} {a : String}
    {input : List Value} {paths : List ColumnPath}
    (h : a ∈ keys (accumFrom input paths m)) :
    a ∈ keys m ∨ ∃ p ∈ paths, a = render p := by
  induction input generalizing m with
  | nil => exact Or.inl h
  | cons v rest ih =>
      simp only [accumFrom, List.foldl_cons] at h ih
      rcases ih h with h' | hp
      · exact mem_keys_of_mem_keys_recordPure h'
      · exact Or.inr hp

theorem nodup_keys_accumFrom {m : AccMap} (input : List Value)
    (paths : List ColumnPath) (h : (keys m).Nodup) :
    (keys (accumFrom input paths m)).Nodup := by
  induction input generalizing m with
  | nil => exact h
  | cons v rest ih =>
      simp only [accumFrom, List.foldl_cons] at ih ⊢
      exact ih (nodup_keys_recordPure _ _ h)

theorem nodup_keys_accumPure (input : List Value) (paths : List ColumnPath) :
    (keys (accumPure input paths)).Nodup :=
  nodup_keys_accumFrom input paths List.nodup_nil

/-! ## Lookup versus membership -/

theorem lookupList_eq_of_mem {m : AccMap} {k : String} {l : List Value}
    (hn : (keys m).Nodup) (h : (k, l) ∈ m) : lookupList m k = some l := by
  induction m with
  | nil => cases h
  | cons e rest ih =>
      obtain ⟨k0, l0⟩ := e
      simp only [keys, List.map_cons, List.nodup_cons] at hn
      rcases List.mem_cons.mp h with h' | h'
      · obtain ⟨hk, hl⟩ := Prod.mk.inj h'
        subst hk
        simp [lookupList_cons, hl]
      · have hk0 : k0 ≠ k := by
          intro he
          subst he
          exact hn.1 (List.mem_map_of_mem Prod.fst h')
        simp only [lookupList_cons, if_neg hk0]
        exact ih hn.2 h'

theorem mem_of_lookupList {m : AccMap} {k : String} {l : List Value}
    (h : lookupList m k = some l) : (k, l) ∈ m := by
  induction m with
  | nil => cases h
  | cons e rest ih =>
      obtain ⟨k0, l0⟩ := e
      by_cases h0 : k0 = k
      · subst h0
        rw [lookupList_cons, if_pos rfl] at h
        obtain rfl := Option.some.inj h
        exact List.mem_cons_self _ _
      · simp only [lookupList_cons, if_neg h0] at h
        exact List.mem_cons_of_mem _ (ih h)

/-! ## Maximum of a list of lengths -/

theorem le_listMax_of_mem {l : List Nat} {n : Nat} (h : n ∈ l) : n ≤ listMax l := by
  induction l with
  | nil => cases h
  | cons a rest ih =>
      rcases List.mem_cons.mp h with h' | h'
      · subst h'
        exact Nat.le_max_left _ _
      · exact Nat.le_trans (ih h') (Nat.le_max_right _ _)

theorem listMax_le {l : List Nat} {N : Nat} (h : ∀ n ∈ l, n ≤ N) : listMax l ≤ N := by
  induction l with
  | nil => exact Nat.zero_le N
  | cons a rest ih =>
      refine Nat.max_le.mpr ⟨h a (List.mem_cons_self a rest), ih ?_⟩
      intro n hn
      exact h n (List.mem_cons_of_mem a hn)

/-! ## First-seen key order -/

theorem recordPure_cons (q : ColumnPath) (rest : List ColumnPath) (v : Value)
    (m : AccMap) :
    recordPure (q :: rest) v m =
      recordPure rest v (fetchPure m (render q) (get_data_by_column_path v q)) := rfl

theorem accumFrom_cons (v : Value) (rest : List Value) (paths : List ColumnPath)
    (m : AccMap) :
    accumFrom (v :: rest) paths m = accumFrom rest paths (recordPure paths v m) := rfl

/-- The first-seen order of the requested paths' canonical keys. -/
def firstSeenKeys (paths : List ColumnPath) : List String :=
  (paths.map render).foldl insertKey []

theorem mem_foldl_insertKey {ks : List String} {a : String} (l : List String)
    (h : a ∈ ks) : a ∈ l.foldl insertKey ks := by
  induction l generalizing ks with
  | nil => exact h
  | cons b t ih => exact ih (mem_insertKey_of_mem b h)

theorem mem_foldl_insertKey_of_mem {l : List String} {a : String} (ks : List String)
    (h : a ∈ l) : a ∈ l.foldl insertKey ks := by
  induction l generalizing ks with
  | nil => cases h
  | cons b t ih =>
      rcases List.mem_cons.mp h with rfl | h'
      · exact mem_foldl_insertKey t (self_mem_insertKey ks a)
      · exact ih _ h'

theorem foldl_insertKey_absorb {l ks : List String} (h : ∀ a ∈ l, a ∈ ks) :
    l.foldl insertKey ks = ks := by
  induction l with
  | nil => rfl
  | cons a t ih =>
      simp only [List.foldl_cons, insertKey_of_mem (h a (List.mem_cons_self a t))]
      exact ih (fun b hb => h b (List.mem_cons_of_mem a hb))

theorem foldl_insertKey_of_disjoint {l : List String} (ks : List String)
    (hn : l.Nodup) (hd : ∀ a ∈ l, a ∉ ks) : l.foldl insertKey ks = ks ++ l := by
  induction l generalizing ks with
  | nil => simp
  | cons a t ih =>
      simp only [List.foldl_cons]
      have ha : a ∉ ks := hd a (List.mem_cons_self a t)
      rw [show insertKey ks a = ks ++ [a] from by simp [insertKey, ha]]
      rw [ih (ks ++ [a]) (List.Nodup.of_cons hn)]
      · simp
      · intro b hb
        simp only [List.mem_append, List.mem_singleton]
        rintro (hbk | rfl)
        · exact hd b (List.mem_cons_of_mem a hb) hbk
        · exact (List.nodup_cons.mp hn).1 hb

theorem firstSeenKeys_of_nodup {paths : List ColumnPath}
    (h : (paths.map render).Nodup) : firstSeenKeys paths = paths.map render := by
  rw [firstSeenKeys, foldl_insertKey_of_disjoint [] h]
  · simp
  · intro a _ ha
    cases ha

/-- With no empty-table fan-outs, one record pass inserts every path key in
declared order. -/
theorem keys_recordPure_eq {paths : List ColumnPath} {v : Value} (m : AccMap)
    (h : ∀ p ∈ paths, get_data_by_column_path v p ≠ some (Value.table [])) :
    keys (recordPure paths v m) = (paths.map render).foldl insertKey (keys m) := by
  induction paths generalizing m with
  | nil => rfl
  | cons q rest ih =>
      rw [recordPure_cons, ih _ (fun p hp => h p (List.mem_cons_of_mem q hp)),
        keys_fetchPure m (render q) (h q (List.mem_cons_self q rest))]
      rfl

theorem keys_accumFrom_stable {input : List Value} {paths : List ColumnPath}
    {m : AccMap} (hk : keys m = firstSeenKeys paths)
    (h : ∀ v ∈ input, ∀ p ∈ paths, get_data_by_column_path v p ≠ some (Value.table [])) :
    keys (accumFrom input paths m) = firstSeenKeys paths := by
  induction input generalizing m with
  | nil => exact hk
  | cons v rest ih =>
      rw [accumFrom_cons]
      refine ih ?_ (fun v' hv' => h v' (List.mem_cons_of_mem v hv'))
      rw [keys_recordPure_eq m (h v (List.mem_cons_self v rest)), hk]
      exact foldl_insertKey_absorb (fun a ha => mem_foldl_insertKey_of_mem [] ha)

/-- With a non-empty input and no empty-table fan-outs, the accumulated key
order is exactly the first-seen order of the requested paths. -/
theorem keys_accumPure_eq {input : List Value} {paths : List ColumnPath}
    (hne : input ≠ [])
    (h : ∀ v ∈ input, ∀ p ∈ paths, get_data_by_column_path v p ≠ some (Value.table [])) :
    keys (accumPure input paths) = firstSeenKeys paths := by
  cases input with
  | nil => exact absurd rfl hne
  | cons v rest =>
      show keys (accumFrom (v :: rest) paths []) = _
      rw [accumFrom_cons]
      refine keys_accumFrom_stable ?_ (fun v' hv' => h v' (List.mem_cons_of_mem v hv'))
      rw [keys_recordPure_eq [] (h v (List.mem_cons_self v rest))]
      rfl

/-- A path whose fetch is not an empty-table fan-out has its key inserted by
the record pass. -/
theorem mem_keys_recordPure_of_path {m : AccMap} {paths : List ColumnPath}
    {p : ColumnPath} {v : Value} (hp : p ∈ paths)
    (hne : get_data_by_column_path v p ≠ some (Value.table [])) :
    render p ∈ keys (recordPure paths v m) := by
  induction paths generalizing m with
  | nil => cases hp
  | cons q rest ih =>
      rw [recordPure_cons]
      rcases List.mem_cons.mp hp with rfl | hp'
      · refine mem_keys_recordPure rest v ?_
        rw [keys_fetchPure m (render p) hne]
        exact self_mem_insertKey _ _
      · exact ih hp'

theorem mem_keys_accumFrom_of_record {m : AccMap} {input : List Value}
    {paths : List ColumnPath} {p : ColumnPath} (hp : p ∈ paths)
    (hx : ∃ v ∈ input, get_data_by_column_path v p ≠ some (Value.table [])) :
    render p ∈ keys (accumFrom input paths m) := by
  induction input generalizing m with
  | nil =>
      obtain ⟨v, hv, _⟩ := hx
      cases hv
  | cons v rest ih =>
      rw [accumFrom_cons]
      obtain ⟨v', hv', hne⟩ := hx
      rcases List.mem_cons.mp hv' with rfl | hv''
      · exact mem_keys_accumFrom rest paths (mem_keys_recordPure_of_path hp hne)
      · exact ih ⟨v', hv'', hne⟩

/-! ## Synthesis-level facts -/

theorem length_synthesize (m : AccMap) : (synthesize m).length = width m := by
  simp [synthesize]

theorem mem_synthesize {m : AccMap} {r : Value} (h : r ∈ synthesize m) :
    ∃ i, i < width m ∧ r = synthRow m i := by
  obtain ⟨i, hi, rfl⟩ := List.mem_map.mp h
  exact ⟨i, List.mem_range.mp hi, rfl⟩

/-- The field names of an output record; `[]` for non-record values. -/
def fieldNames : Value → List String
  | .row entries => entries.map Prod.fst
  | _ => []

theorem map_fst_pairs (ks : List String) (f : String → Value) :
    (ks.map (fun a => (a, f a))).map Prod.fst = ks := by
  induction ks with
  | nil => rfl
  | cons a t ih => simp [ih]

theorem fieldNames_synthRow (m : AccMap) (i : Nat) :
    fieldNames (synthRow m i) = keys m :=
  map_fst_pairs (keys m) (fun k => cellAt m k i)

theorem lookupField_map_self {ks : List String} (f : String → Value) {k : String}
    (h : k ∈ ks) : lookupField (ks.map (fun a => (a, f a))) k = some (f k) := by
  induction ks with
  | nil => cases h
  | cons a rest ih =>
      by_cases ha : a = k
      · subst ha
        simp [lookupField]
      · rcases List.mem_cons.mp h with h' | h'
        · exact absurd h'.symm ha
        · simp only [List.map_cons, lookupField, if_neg ha]
          exact ih h'

theorem get_data_synthRow {m : AccMap} {k : String} (i : Nat) (h : k ∈ keys m) :
    get_data (synthRow m i) k = cellAt m k i := by
  simp [synthRow, get_data, lookupField_map_self (fun a => cellAt m a i) h]

/-! ## Contributions of duplicate paths, and the shape of stored values -/

/-- Concatenated contributions of a path list, ignoring key filtering. -/
def contribsList (k : String) (v : Value) : List ColumnPath → List Value
  | [] => []
  | p :: rest => contrib k (get_data_by_column_path v p) ++ contribsList k v rest

/-- Only the paths rendering to `k` contribute to `k`'s list. -/
theorem contribs_eq_filter (k : String) (v : Value) (L : List ColumnPath) :
    contribs k v L = contribsList k v (L.filter (fun q => render q = k)) := by
  induction L with
  | nil => rfl
  | cons p rest ih =>
      by_cases hr : render p = k
      · simp [contribs, contribsList, List.filter_cons, hr, ih]
      · simp [contribs, contribsList, List.filter_cons, hr, ih]

theorem mem_contrib {key : String} {r : Option Value} {x : Value}
    (h : x ∈ contrib key r) : ∃ w, x = wrap key w := by
  cases r with
  | none => cases h
  | some v =>
      cases v with
      | table rows =>
          obtain ⟨w, _, hw⟩ := List.mem_map.mp h
          exact ⟨w, hw.symm⟩
      | primitive p =>
          simp only [contrib, List.mem_singleton] at h
          exact ⟨_, h⟩
      | row entries =>
          simp only [contrib, List.mem_singleton] at h
          exact ⟨_, h⟩

theorem mem_contribs {k : String} {v x : Value} {paths : List ColumnPath}
    (h : x ∈ contribs k v paths) : ∃ w, x = wrap k w := by
  induction paths with
  | nil => cases h
  | cons p rest ih =>
      simp only [contribs, List.mem_append] at h
      rcases h with h | h
      · by_cases hr : render p = k
        · rw [if_pos hr] at h
          exact mem_contrib h
        · rw [if_neg hr] at h
          cases h
      · exact ih h

theorem mem_streamContribs {k : String} {x : Value} {paths : List ColumnPath}
    {input : List Value} (h : x ∈ streamContribs k paths input) :
    ∃ w, x = wrap k w := by
  induction input with
  | nil => cases h
  | cons v rest ih =>
      simp only [streamContribs, List.mem_append] at h
      rcases h with h | h
      · exact mem_contribs h
      · exact ih h

/-- The record `{a:1, b:[]}`, whose `b` cell is an empty table. -/
def recEmptyTable : Value :=
  Value.row [("a", Value.primitive (Primitive.int 1)), ("b", Value.table [])]

/-- The first output row Scenario D actually produces: `{a:1, b:9}`. -/
def actualRowD0 : Value :=
  Value.row [("a", Value.primitive (Primitive.int 1)),
             ("b", Value.primitive (Primitive.int 9))]

/-- The second output row Scenario D actually produces: `{a:2, b:null}`. -/
def actualRowD1 : Value :=
  Value.row [("a", Value.primitive (Primitive.int 2)), ("b", nothing_value)]

/-- The first output row the spec's Scenario D claims: `{a:1, b:null}`. -/
def claimedRowD0 : Value :=
  Value.row [("a", Value.primitive (Primitive.int 1)), ("b", nothing_value)]

/-- The second output row the spec's Scenario D claims: `{a:2, b:9}`. -/
def claimedRowD1 : Value :=
  Value.row [("a", Value.primitive (Primitive.int 2)),
             ("b", Value.primitive (Primitive.int 9))]

/-! ## Claims -/

/-- Claim C1: for every accumulation map produced from any input stream and
requested paths, the number of records emitted by synthesis equals the
maximum, over all requested columns, of the length of that column's
accumulated list (`0` when every list is empty). -/
theorem C1_width_law (input : List Value) (fields : List ColumnPath) (m : AccMap)
    (hm : accumInput input fields [] = Except.ok m) :
    (synthesize m).length =
      listMax (fields.map (fun p => (listFor m (render p)).length)) := by
  obtain rfl := accumPure_of_accumInput hm
  rw [length_synthesize]
  apply Nat.le_antisymm
  · show listMax ((accumPure input fields).map (fun kv => kv.2.length)) ≤ _
    refine listMax_le ?_
    intro n hn
    obtain ⟨e, hmem, rfl⟩ := List.mem_map.mp hn
    obtain ⟨k, l⟩ := e
    have hk : k ∈ keys (accumPure input fields) := List.mem_map_of_mem Prod.fst hmem
    rcases mem_keys_of_mem_keys_accumFrom hk with h0 | ⟨p, hp, rfl⟩
    · cases h0
    · have hlf : listFor (accumPure input fields) (render p) = l := by
        simp [listFor, lookupList_eq_of_mem (nodup_keys_accumPure input fields) hmem]
      refine le_listMax_of_mem (List.mem_map.mpr ⟨p, hp, ?_⟩)
      rw [hlf]
  · refine listMax_le ?_
    intro n hn
    obtain ⟨p, hp, rfl⟩ := List.mem_map.mp hn
    cases hl : lookupList (accumPure input fields) (render p) with
    | none => simp [listFor, hl]
    | some l =>
        have hmem := mem_of_lookupList hl
        have hin : l.length ∈ (accumPure input fields).map (fun kv => kv.2.length) :=
          List.mem_map_of_mem _ hmem
        have he : (listFor (accumPure input fields) (render p)).length = l.length := by
          simp [listFor, hl]
        rw [he]
        exact le_listMax_of_mem hin

/-- Witness for C1 on the Scenario D data. -/
theorem C1_width_law_witness :
    (synthesize (accumPure inputD [pathA, pathB])).length =
      listMax ([pathA, pathB].map
        (fun p => (listFor (accumPure inputD [pathA, pathB]) (render p)).length)) :=
  C1_width_law inputD [pathA, pathB] (accumPure inputD [pathA, pathB]) rfl

/-- Claim C2 counterexample: on input `[{a:1},{a:2,b:9}]` with paths `[a, b]`
the operator does not output `[{a:1,b:null},{a:2,b:9}]`. -/
theorem C2_counterexample :
    select [pathA, pathB] inputD ≠ Except.ok [claimedRowD0, claimedRowD1] := by
  intro h
  have e : select [pathA, pathB] inputD = Except.ok [actualRowD0, actualRowD1] := rfl
  rw [e] at h
  simp [actualRowD0, actualRowD1, claimedRowD0, claimedRowD1, nothing_value] at h

/-- Claim C2 amended: on `[{a:1},{a:2,b:9}]` with paths `[a, b]` the operator
outputs `[{a:1,b:9},{a:2,b:null}]` — width 2 comes from column `a`, and
column `b`'s single contributed value sits at its own list index 0, which
lands in output row 0, not in the row of the input record it came from. -/
theorem C2_amended :
    select [pathA, pathB] inputD = Except.ok [actualRowD0, actualRowD1] ∧
    width (accumPure inputD [pathA, pathB]) = 2 :=
  ⟨rfl, rfl⟩

/-- Claim C3: invoking `select` with an empty requested-path list fails
immediately with the "Select requires columns to select" / "needs parameter"
error and produces no output; no accumulation is performed. -/
theorem C3_empty_paths_error (input : List Value) :
    select [] input =
      Except.error
        (ShellError.labeled_error "Select requires columns to select"
          "needs parameter") :=
  rfl

/-- Claim C4: a path-resolution failure is never propagated to the caller —
the strict branch's controlling flag is always `none`, a failed fetch is
swallowed by merely ensuring the key is present with no entry appended, and
for every non-empty path list the command returns a success value. -/
theorem C4_strict_unreachable :
    strictFlag = none ∧
    (∀ (m : AccMap) (key : String),
        fetchStep m key none = Except.ok (ensureEntry m key)) ∧
    (∀ (m : AccMap) (key k : String),
        key ∈ keys (ensureEntry m key) ∧
        listFor (ensureEntry m key) k = listFor m k) ∧
    (∀ (fields : List ColumnPath) (input : List Value), fields ≠ [] →
        ∃ out, select fields input = Except.ok out) := by
  refine ⟨rfl, fun m key => rfl,
    fun m key k => ⟨?_, listFor_ensureEntry m key k⟩, ?_⟩
  · rw [keys_ensureEntry]
    exact self_mem_insertKey _ _
  · intro fields input hne
    cases fields with
    | nil => exact absurd rfl hne
    | cons f rest =>
        refine ⟨synthesize (accumFrom input (f :: rest) []), ?_⟩
        simp [select, accumInput_eq_ok]

/-- Witness for C4 at a concrete invocation. -/
theorem C4_strict_unreachable_witness :
    ∃ out, select [pathA] [] = Except.ok out :=
  C4_strict_unreachable.2.2.2 [pathA] [] (by simp)

theorem listFor_okStep (m : AccMap) (key k : String) (v : Value) :
    listFor (okStep m key v) k =
      if k = key then listFor m k ++ contrib key (some v) else listFor m k :=
  listFor_fetchPure m key k (some v)

theorem contrib_of_not_table {key : String} {v : Value}
    (h : ∀ rows, v ≠ Value.table rows) : contrib key (some v) = [wrap key v] := by
  cases v with
  | table rows => exact absurd rfl (h rows)
  | primitive p => rfl
  | row entries => rfl

/-- Claim C5: a fetched table with `n` elements appends exactly `n` wrapper
records (in table order) to its own column's list and leaves every other
column's list unchanged; a fetched non-table value appends exactly one
wrapper record. -/
theorem C5_table_flattening (m : AccMap) (key k' : String) (v : Value) :
    (∀ rows, v = Value.table rows →
        listFor (okStep m key v) key = listFor m key ++ rows.map (wrap key) ∧
        (k' ≠ key → listFor (okStep m key v) k' = listFor m k')) ∧
    ((∀ rows, v ≠ Value.table rows) →
        listFor (okStep m key v) key = listFor m key ++ [wrap key v] ∧
        (k' ≠ key → listFor (okStep m key v) k' = listFor m k')) := by
  constructor
  · rintro rows rfl
    refine ⟨?_, fun hk => ?_⟩
    · simp [listFor_okStep, contrib]
    · simp [listFor_okStep, hk]
  · intro hnt
    refine ⟨?_, fun hk => ?_⟩
    · simp [listFor_okStep, contrib_of_not_table hnt]
    · simp [listFor_okStep, hk]

/-- Witness for C5: a two-element table fans out into two wrappers under its
own key and leaves another key untouched. -/
theorem C5_table_flattening_witness :
    listFor (okStep [] "k" (Value.table [Value.primitive (Primitive.int 1),
        Value.primitive (Primitive.int 2)])) "k" =
      listFor [] "k" ++
        [Value.primitive (Primitive.int 1),
          Value.primitive (Primitive.int 2)].map (wrap "k") ∧
    listFor (okStep [] "k" (Value.table [Value.primitive (Primitive.int 1),
        Value.primitive (Primitive.int 2)])) "j" = listFor [] "j" :=
  ⟨((C5_table_flattening [] "k" "j"
      (Value.table [Value.primitive (Primitive.int 1),
        Value.primitive (Primitive.int 2)])).1 _ rfl).1,
   ((C5_table_flattening [] "k" "j"
      (Value.table [Value.primitive (Primitive.int 1),
        Value.primitive (Primitive.int 2)])).1 _ rfl).2 (by decide)⟩

/-- Claim C6 counterexample: a column whose only cell is an empty table never
gets its key inserted, so the output record's field order is not the
first-seen requested order. -/
theorem C6_counterexample :
    select [pathA, pathB] [recEmptyTable] =
      Except.ok [Value.row [("a", Value.primitive (Primitive.int 1))]] ∧
    fieldNames (Value.row [("a", Value.primitive (Primitive.int 1))]) ≠
      firstSeenKeys [pathA, pathB] :=
  ⟨rfl, by decide⟩

/-- Claim C6 amended: provided no requested path ever resolves to an empty
table (whose fan-out inserts nothing), the field order of every output record
equals the first-seen order of the requested paths' keys; when the rendered
keys are distinct this is exactly the declared order. -/
theorem C6_field_order (fields : List ColumnPath) (input : List Value)
    (out : List Value) (r : Value)
    (hsel : select fields input = Except.ok out) (hr : r ∈ out)
    (hnt : ∀ v ∈ input, ∀ p ∈ fields,
        get_data_by_column_path v p ≠ some (Value.table [])) :
    fieldNames r = firstSeenKeys fields ∧
    ((fields.map render).Nodup → fieldNames r = fields.map render) := by
  cases fields with
  | nil => exact Except.noConfusion hsel
  | cons f rest =>
      simp only [select, accumInput_eq_ok, List.singleton_append,
        Except.ok.injEq] at hsel
      subst hsel
      obtain ⟨i, hi, rfl⟩ := mem_synthesize hr
      rw [fieldNames_synthRow]
      have hne : input ≠ [] := by
        intro he
        subst he
        exact Nat.not_lt_zero i hi
      have hkeys : keys (accumFrom input (f :: rest) []) =
          firstSeenKeys (f :: rest) := keys_accumPure_eq hne hnt
      rw [hkeys]
      exact ⟨rfl, fun hnd => firstSeenKeys_of_nodup hnd⟩

/-- Witness for C6 on a one-record stream where both paths resolve. -/
theorem C6_field_order_witness :
    fieldNames (Value.row [("a", Value.primitive (Primitive.int 2)),
        ("b", Value.primitive (Primitive.int 9))]) = firstSeenKeys [pathA, pathB] ∧
    (([pathA, pathB].map render).Nodup →
      fieldNames (Value.row [("a", Value.primitive (Primitive.int 2)),
          ("b", Value.primitive (Primitive.int 9))]) = [pathA, pathB].map render) :=
  C6_field_order [pathA, pathB] [recA2B9]
    [Value.row [("a", Value.primitive (Primitive.int 2)),
        ("b", Value.primitive (Primitive.int 9))]]
    (Value.row [("a", Value.primitive (Primitive.int 2)),
        ("b", Value.primitive (Primitive.int 9))])
    rfl (List.mem_singleton.mpr rfl)
    (by
      intro v hv p hp h
      obtain rfl := List.mem_singleton.mp hv
      rcases List.mem_cons.mp hp with rfl | hp'
      · exact Value.noConfusion (Option.some.inj h)
      · obtain rfl := List.mem_singleton.mp hp'
        exact Value.noConfusion (Option.some.inj h))

/-- Claim C7: any output cell whose column list has no element at the row
index — including a column that never resolved at all — is the null
marker. -/
theorem C7_missing_cell (m : AccMap) (i : Nat) (k : String)
    (hk : k ∈ keys m) (h : (listFor m k).length ≤ i) :
    get_data (synthRow m i) k = nothing_value ∧ cellAt m k i = nothing_value := by
  have hc : cellAt m k i = nothing_value := by
    unfold cellAt
    split
    · rename_i set hl
      split
      · rename_i r hr
        have hset : listFor m k = set := by simp [listFor, hl]
        rw [hset] at h
        rw [List.get?_eq_none.mpr h] at hr
        exact Option.noConfusion hr
      · rfl
    · rfl
  exact ⟨by rw [get_data_synthRow i hk, hc], hc⟩

/-- Witness for C7: a key with an empty accumulated list yields a null cell. -/
theorem C7_missing_cell_witness :
    get_data (synthRow [("a", [])] 0) "a" = nothing_value ∧
    cellAt [("a", [])] "a" 0 = nothing_value :=
  C7_missing_cell [("a", [])] 0 "a" (by decide) (by decide)

/-- Claim C8 counterexample: with an empty input stream the accumulation loop
never runs, so a requested key is absent from the finished map. -/
theorem C8_counterexample :
    accumInput [] [pathA] [] = Except.ok [] ∧
    render pathA ∉ keys ([] : AccMap) :=
  ⟨rfl, by decide⟩

/-- Claim C8 amended: a requested path's canonical key is present in the
finished accumulation map provided at least one input record's fetch for it
is not an empty-table fan-out (in particular, for any non-empty input on
which the path never resolves to an empty table — resolution failures still
insert the key). -/
theorem C8_keys_present (input : List Value) (fields : List ColumnPath)
    (p : ColumnPath) (m : AccMap)
    (hm : accumInput input fields [] = Except.ok m) (hp : p ∈ fields)
    (hx : ∃ v ∈ input, get_data_by_column_path v p ≠ some (Value.table [])) :
    render p ∈ keys m := by
  obtain rfl := accumPure_of_accumInput hm
  exact mem_keys_accumFrom_of_record hp hx

/-- Witness for C8 on a one-record stream. -/
theorem C8_keys_present_witness :
    render pathA ∈ keys (accumPure [recA1] [pathA]) :=
  C8_keys_present [recA1] [pathA] pathA (accumPure [recA1] [pathA]) rfl
    (List.mem_singleton.mpr rfl)
    ⟨recA1, List.mem_singleton.mpr rfl,
      fun h => Value.noConfusion (Option.some.inj h)⟩

/-- Claim C9: when the requested-path list contains the same column path
exactly twice (and no other path rendering to the same key), both occurrences
accumulate into the same canonical key and the key's list is doubled relative
to requesting the path once. -/
theorem C9_duplicate_paths (L : List ColumnPath) (p : ColumnPath)
    (input : List Value)
    (h : L.filter (fun q => render q = render p) = [p, p]) :
    (listFor (accumPure input L) (render p)).length =
      2 * (listFor (accumPure input [p]) (render p)).length := by
  rw [listFor_accumPure, listFor_accumPure]
  induction input with
  | nil => rfl
  | cons v rest ih =>
      have hone : ([p].filter (fun q => render q = render p)) = [p] := by
        simp [List.filter_cons]
      have hc : (contribs (render p) v L).length =
          2 * (contribs (render p) v [p]).length := by
        rw [contribs_eq_filter, h, contribs_eq_filter, hone]
        simp [contribsList, Nat.two_mul]
      simp only [streamContribs, List.length_append]
      omega

/-- Witness for C9: requesting `a` twice on the Scenario D input doubles the
accumulated list. -/
theorem C9_duplicate_paths_witness :
    (listFor (accumPure inputD [pathA, pathA]) (render pathA)).length =
      2 * (listFor (accumPure inputD [pathA]) (render pathA)).length :=
  C9_duplicate_paths [pathA, pathA] pathA inputD rfl

/-- Claim C10: every value stored in an accumulation list under key `k` is a
single-field wrapper record `{k: w}`, and synthesis-time extraction of field
`k` recovers exactly the wrapped value, never a missing-field fallback. -/
theorem C10_wrapper_invariant (input : List Value) (paths : List ColumnPath)
    (k : String) (x : Value)
    (hx : x ∈ listFor (accumPure input paths) k) :
    ∃ w, x = Value.row [(k, w)] ∧ get_data x k = w := by
  rw [listFor_accumPure] at hx
  obtain ⟨w, rfl⟩ := mem_streamContribs hx
  refine ⟨w, rfl, ?_⟩
  simp [wrap, get_data, lookupField]

/-- Witness for C10 on a one-record stream. -/
theorem C10_wrapper_invariant_witness :
    ∃ w, wrap "a" (Value.primitive (Primitive.int 1)) = Value.row [("a", w)] ∧
      get_data (wrap "a" (Value.primitive (Primitive.int 1))) "a" = w :=
  C10_wrapper_invariant [recA1] [pathA] "a"
    (wrap "a" (Value.primitive (Primitive.int 1)))
    (List.mem_singleton.mpr rfl)

end NuSelect
